import Mathlib

/-!
Verification of the caption/transcript alignment pipeline
(`data_utils/youtube_caption_aligner.py`, `data_utils/chunker.py`,
`data_utils/utils.py`).

The Python code is shallowly embedded: mutable session state becomes an
explicit state record threaded through a recursion over the caption list,
Python lists become Lean `List`s, floats become `ℚ` (all constants involved
are decimal, so exactly representable), and fallible operations (list
indexing that can raise `IndexError`, division that can raise
`ZeroDivisionError`) return `Option`/`Except`.
-/

/-- Alphabet-level model of Python's `str.split()` (split on runs of
whitespace, dropping empty pieces).  `acc` holds the characters of the word
currently being scanned, in reverse order. -/
def chWordsAux : List Char → List Char → List (List Char)
  | [], acc => if acc = [] then [] else [acc.reverse]
  | c :: cs, acc =>
    if c.isWhitespace then
      if acc = [] then chWordsAux cs [] else acc.reverse :: chWordsAux cs []
    else chWordsAux cs (c :: acc)

/-- Python's `s.split()`: whitespace tokenization producing no empty tokens. -/
def pySplit (s : String) : List String :=
  (chWordsAux s.data []).map (fun l => String.mk l)

/-- Python's `" ".join(ws)`. -/
def joinWords : List String → String
  | [] => ""
  | [w] => w
  | w :: x :: xs => w ++ " " ++ joinWords (x :: xs)

/-- A word as produced by Python's `str.split()`: nonempty and free of
whitespace characters. -/
def GoodToken (w : String) : Prop :=
  w.data ≠ [] ∧ ∀ c ∈ w.data, c.isWhitespace = false

instance : DecidablePred GoodToken := fun w => by
  unfold GoodToken; infer_instance

lemma string_data_append (a b : String) : (a ++ b).data = a.data ++ b.data := by
  cases a; cases b; rfl

lemma string_mk_data (s : String) : String.mk s.data = s := by
  cases s; rfl

lemma chWordsAux_nonws (w : List Char) (hw : ∀ c ∈ w, c.isWhitespace = false) :
    ∀ rest acc, chWordsAux (w ++ rest) acc = chWordsAux rest (w.reverse ++ acc) := by
  induction w with
  | nil => intro rest acc; simp [chWordsAux]
  | cons c cs ih =>
    intro rest acc
    have hc : c.isWhitespace = false := hw c (by simp)
    have hcs : ∀ x ∈ cs, x.isWhitespace = false := fun x hx => hw x (by simp [hx])
    have step : chWordsAux (c :: (cs ++ rest)) acc = chWordsAux (cs ++ rest) (c :: acc) := by
      simp [chWordsAux, hc]
    rw [List.cons_append, step, ih hcs rest (c :: acc)]
    simp

lemma chWordsAux_append_space (ys : List Char) :
    ∀ xs acc, chWordsAux (xs ++ ' ' :: ys) acc =
      chWordsAux xs acc ++ chWordsAux ys [] := by
  intro xs
  induction xs with
  | nil =>
    intro acc
    by_cases h : acc = [] <;>
      simp [chWordsAux, h, Char.isWhitespace]
  | cons c cs ih =>
    intro acc
    by_cases hc : c.isWhitespace
    · by_cases h : acc = [] <;> simp [chWordsAux, hc, h, ih]
    · simp [chWordsAux, hc, ih]

lemma pySplit_empty : pySplit "" = [] := rfl

lemma pySplit_append_space (a b : String) :
    pySplit (a ++ " " ++ b) = pySplit a ++ pySplit b := by
  unfold pySplit
  rw [string_data_append, string_data_append]
  have : (" " : String).data = [' '] := rfl
  rw [this, List.append_assoc, List.singleton_append, chWordsAux_append_space,
    List.map_append]

lemma pySplit_joinWords (ts : List String) :
    pySplit (joinWords ts) = (ts.map pySplit).flatten := by
  induction ts with
  | nil => simp [joinWords, pySplit_empty]
  | cons w ws ih =>
    cases ws with
    | nil => simp [joinWords]
    | cons x xs =>
      simp only [joinWords]
      rw [pySplit_append_space, ih]
      simp

lemma pySplit_goodToken (w : String) (hw : GoodToken w) : pySplit w = [w] := by
  obtain ⟨hne, hws⟩ := hw
  unfold pySplit
  have : w.data = w.data ++ [] := by simp
  rw [this, chWordsAux_nonws w.data hws [] []]
  have hrev : w.data.reverse ≠ [] := by simpa using hne
  simp [chWordsAux, hrev, string_mk_data]

lemma pySplit_join_goodTokens (ws : List String) (h : ∀ w ∈ ws, GoodToken w) :
    pySplit (joinWords ws) = ws := by
  rw [pySplit_joinWords]
  induction ws with
  | nil => simp
  | cons w rest ih =>
    have hw := pySplit_goodToken w (h w (by simp))
    simp only [List.map_cons, List.flatten_cons, hw]
    rw [ih (fun x hx => h x (by simp [hx]))]
    rfl

/-- Python's `str.lower()`, modelled character-wise (ASCII case folding via
`Char.toLower`). -/
def pyLower (s : String) : String := String.mk (s.data.map Char.toLower)

/-- The character set of Python's `string.punctuation`
(the ASCII ranges `!`..`/`, `:`..`@`, `[`..` ` ++ "`" ++ `, `{`..`~`,
i.e. codes 33-47, 58-64, 91-96, 123-126). -/
def isPunctChar (c : Char) : Bool :=
  (33 ≤ c.toNat && c.toNat ≤ 47) || (58 ≤ c.toNat && c.toNat ≤ 64) ||
  (91 ≤ c.toNat && c.toNat ≤ 96) || (123 ≤ c.toNat && c.toNat ≤ 126)

/-- Model of `YouTubeCaptionAligner._remove_punctuation`: delete every
`string.punctuation` character (Python `str.translate` with a deletion
table). -/
def remove_punctuation (s : String) : String :=
  String.mk (s.data.filter (fun c => !(isPunctChar c)))

/-- The normalization applied throughout the aligner:
`_remove_punctuation(text.lower())`. -/
def normWord (s : String) : String := remove_punctuation (pyLower s)

/-- Python list slicing `l[a:b]` for nonnegative bounds. -/
def pySlice (l : List α) (a b : Nat) : List α := (l.take b).drop a

/-- Model of `utils.find_sublist_in_list`: first index where `sub` occurs as a
contiguous sublist of `lst`, or `-1`.  The Python loop runs `i` over
`range(len(lst) - len(sub) + 1)` and returns the first `i` with
`lst[i:i+len(sub)] == sub`. -/
def find_sublist_in_list [DecidableEq α] (sub lst : List α) : Int :=
  match (List.range (lst.length - sub.length + 1)).find?
      (fun i => pySlice lst i (i + sub.length) == sub) with
  | some i => (i : Int)
  | none => -1

/-- Python's `min(xs, key=k)` on a nonempty list: scans left to right and
keeps the first element with minimal key.  (On `[]` Python raises
`ValueError`; the default `0` is never used at the one call site, where the
list is checked nonempty.) -/
def pythonMinBy (key : Nat → Nat) : List Nat → Nat
  | [] => 0
  | x :: xs => xs.foldl (fun acc y => if key y < key acc then y else acc) x

/-- Model of `utils.TranscriptChunk`: a text span with start and end times in
seconds.  Python floats are modelled as rationals. -/
structure TranscriptChunk where
  text : String
  start : ℚ
  «end» : ℚ
deriving DecidableEq

/-- Errors the embedded Python code can raise.  `indexError` models
Python's built-in `IndexError` (out-of-range list indexing such as
`some_list[-1]` on an empty list).  `alignmentExhausted` is modelled from
the spec: the spec's error taxonomy names an `AlignmentExhaustedError` for
the zero-commits case, but no such error class exists anywhere in the
source, so no embedded code path ever produces this constructor. -/
inductive PyError where
  | indexError
  | alignmentExhausted
deriving DecidableEq

/-- Model of `YouTubeCaptionAligner._compute_word_counts_in_transcript`, as the
function from a normalized word to its number of occurrences.  The Python
dict maps each `_remove_punctuation(word.lower())` over the transcript word
list to its count; a key is present in the dict iff this count is nonzero,
which is all the aligner ever uses. -/
def _compute_word_counts_in_transcript (transcriptList : List String) (w : String) : Nat :=
  (transcriptList.map (fun x => remove_punctuation (pyLower x))).count w

/-- Model of `YouTubeCaptionAligner._validate_youtube_caption`.  `wc` is the word
count table, `unmatchable` the `unmatchable_words` set.  Returns `none` for
the `IndexError` Python raises on `caption.text.split()[0]` when the text
has no words (the single-word check fires first, so only the empty split
reaches the indexing). -/
def _validate_youtube_caption (wc : String → Nat) (unmatchable : List String)
    (caption : TranscriptChunk) : Option Bool :=
  let ws := pySplit caption.text
  if ws.length = 1 then some false
  else
    match ws.head? with
    | none => none
    | some word_to_match =>
      if wc word_to_match = 0 then some false
      else if word_to_match ∈ unmatchable then some false
      else some true

/-- The transcript search window of one `_align_captions` iteration:
`transcript_list[start_index + len_cur_text - buffer
  : min(start_index + len_cur_text + buffer, len(transcript_list))]`. -/
def searchRange (transcriptList : List String) (start_index len_cur_text buffer : Nat) :
    List String :=
  pySlice transcriptList (start_index + len_cur_text - buffer)
    (min (start_index + len_cur_text + buffer) transcriptList.length)

/-- The match positions of one `_align_captions` iteration: indices in the
search window whose normalized token equals the normalized anchor word. -/
def anchorMatches (transcriptList : List String) (start_index len_cur_text buffer : Nat)
    (word_to_match : String) : List Nat :=
  ((searchRange transcriptList start_index len_cur_text buffer).enum.filter
    (fun p => normWord p.2 == normWord word_to_match)).map Prod.fst

/-- The mutable session state of `_align_captions`: `start_index`,
`len_cur_text`, and the `aligned_transcripts` accumulator. -/
structure AlignState where
  start_index : Nat
  len_cur_text : Nat
  aligned : List TranscriptChunk
deriving DecidableEq

/-- The start time chosen at a commit:
`aligned_transcripts[-1].end if aligned_transcripts else youtube_caption[0].start`. -/
def lastEnd (caption0start : ℚ) (aligned : List TranscriptChunk) : ℚ :=
  match aligned.getLast? with
  | some c => c.«end»
  | none => caption0start

/-- One iteration of the `_align_captions` loop, processing the adjacent
caption pair `(cur, next)`.  `none` models an uncaught `IndexError` (the
second `[]` branch is unreachable: validation returned `true`, so the split
is nonempty). -/
def alignStep (transcriptList : List String) (wc : String → Nat)
    (unmatchable : List String) (caption0start : ℚ) (s : AlignState)
    (cur next : TranscriptChunk) : Option AlignState :=
  let len_cur_text := s.len_cur_text + (pySplit cur.text).length
  let buffer := len_cur_text
  match _validate_youtube_caption wc unmatchable next with
  | none => none
  | some false => some { s with len_cur_text := len_cur_text }
  | some true =>
    match pySplit next.text with
    | [] => none
    | word_to_match :: _ =>
      let search_range := searchRange transcriptList s.start_index len_cur_text buffer
      let center_index := search_range.length / 2
      -- the Python local is named `matches`, which is reserved syntax in Lean
      let matchIndices := anchorMatches transcriptList s.start_index len_cur_text buffer word_to_match
      if matchIndices = [] then some { s with len_cur_text := len_cur_text }
      else if matchIndices.length > 2 then some { s with len_cur_text := len_cur_text }
      else
        let start_time := lastEnd caption0start s.aligned
        let end_time := next.start
        let closest_match_index :=
          pythonMinBy (fun x => ((x : ℤ) - (center_index : ℤ)).natAbs) matchIndices
        some { start_index := s.start_index + (len_cur_text - buffer + closest_match_index),
               len_cur_text := 0,
               aligned := s.aligned ++
                 [{ text := joinWords (search_range.take closest_match_index),
                    start := start_time, «end» := end_time }] }

/-- The `for i in range(0, len(youtube_caption) - 1)` loop of
`_align_captions`, driven by the list of remaining captions (each iteration
uses captions `i` and `i + 1`). -/
def alignLoop (transcriptList : List String) (wc : String → Nat)
    (unmatchable : List String) (caption0start : ℚ) (s : AlignState) :
    List TranscriptChunk → Option AlignState
  | c1 :: c2 :: rest =>
    match alignStep transcriptList wc unmatchable caption0start s c1 c2 with
    | none => none
    | some s' => alignLoop transcriptList wc unmatchable caption0start s' (c2 :: rest)
  | _ => some s

/-- Model of `YouTubeCaptionAligner._align_captions`.  After the loop, the code
reads `aligned_transcripts[-1]` and `youtube_caption[-1]` and appends the
final segment covering `transcript_list[start_index:]`; with zero committed
segments the first of those raises `IndexError`. -/
def _align_captions (transcriptList : List String) (wc : String → Nat)
    (unmatchable : List String) (captions : List TranscriptChunk) :
    Except PyError (List TranscriptChunk) :=
  match captions with
  | [] => .error .indexError
  | c0 :: _ =>
    match alignLoop transcriptList wc unmatchable c0.start ⟨0, 0, []⟩ captions with
    | none => .error .indexError
    | some s =>
      match s.aligned.getLast? with
      | none => .error .indexError
      | some last_aligned_transcript =>
        match captions.getLast? with
        | none => .error .indexError
        | some last_youtube_caption =>
          .ok (s.aligned ++
            [{ text := joinWords (transcriptList.drop s.start_index),
               start := last_aligned_transcript.«end»,
               «end» := last_youtube_caption.«end» }])

/-- The caption-scanning loop of the transcript-longer case (case 2) of
`_align_youtube_caption_transcript_starting_points`: scan
`youtube_caption[0:100]`, skip captions with fewer than 3 normalized words,
and return `(match, i)` for the first caption found as a contiguous
sublist of the normalized transcript word list. -/
def case2Search (transcript_text_list : List String) (captions : List TranscriptChunk) :
    Option (Nat × Nat) :=
  ((captions.take 100).enum.findSome? (fun p =>
    let caption_text_list := pySplit (remove_punctuation (pyLower p.2.text))
    if caption_text_list.length < 3 then none
    else
      let m := find_sublist_in_list caption_text_list transcript_text_list
      if m ≠ -1 then some (m.toNat, p.1) else none))

/-- The window-scanning loops of the caption-longer case (case 3) of
`_align_youtube_caption_transcript_starting_points`: for each `i` in
`range(min(100, len(transcript_list)))` take the normalized window
`transcript_list[i:i+3]` and search it in each caption's normalized word
list (3+-word captions only); the first hit yields `(match, j)`.  Note the
first component is `match` — the position of the window INSIDE caption
`j`'s word list — which the source then uses as `transcript_index`. -/
def case3Search (transcriptList : List String) (captions : List TranscriptChunk) :
    Option (Nat × Nat) :=
  ((List.range (min 100 transcriptList.length)).findSome? (fun i =>
    let transcript_text_list :=
      (pySlice transcriptList i (i + 3)).map (fun w => remove_punctuation (pyLower w))
    captions.enum.findSome? (fun p =>
      let caption_text_list := pySplit (remove_punctuation (pyLower p.2.text))
      if caption_text_list.length < 3 then none
      else
        let m := find_sublist_in_list transcript_text_list caption_text_list
        if m ≠ -1 then some (m.toNat, p.1) else none)))

/-- Model of `YouTubeCaptionAligner._align_youtube_caption_transcript_starting_points`.
Returns the boolean result together with the (possibly trimmed)
`_youtube_caption` and `_transcript_list` fields after the call (the Python
method mutates them in place).  `none` models the `ZeroDivisionError`
raised when the captions contain no words at all. -/
def _align_youtube_caption_transcript_starting_points (transcriptText : String)
    (transcriptList : List String) (captions : List TranscriptChunk) :
    Option (Bool × List TranscriptChunk × List String) :=
  let transcript_length := transcriptList.length
  let youtube_caption_length := (captions.map (fun c => (pySplit c.text).length)).sum
  if youtube_caption_length = 0 then none
  else
    let r : ℚ := (transcript_length : ℚ) / (youtube_caption_length : ℚ)
    if 9/10 < r ∧ r < 11/10 then some (true, captions, transcriptList)
    else
      let result :=
        if r > 11/10 then
          case2Search (pySplit (remove_punctuation (pyLower transcriptText))) captions
        else
          case3Search transcriptList captions
      match result with
      | some (transcript_index, youtube_caption_index) =>
        some (true, captions.drop youtube_caption_index, transcriptList.drop transcript_index)
      | none => some (false, captions, transcriptList)

/-- The reference string of `_sanity_check_data`:
`"".join(" " + _remove_punctuation(caption.text.lower()) for caption in youtube_caption)`
built by the Python `+=` loop. -/
def referenceString (captions : List TranscriptChunk) : String :=
  captions.foldl (fun acc c => acc ++ " " ++ remove_punctuation (pyLower c.text)) ""

/-- The transcript string of `_sanity_check_data`:
`_remove_punctuation(transcript_text.lower())`. -/
def transcriptString (transcriptText : String) : String :=
  remove_punctuation (pyLower transcriptText)

/-- Model of `YouTubeCaptionAligner._sanity_check_data`.  `wer` and `cosine` stand
for `utils.compute_wer` (jiwer) and `utils.compute_cosine_similarity`
(sklearn TF-IDF), which are external library calls; they are parameters of
the embedding.  `audio_source_length` is `_get_audio_souce_length()`.
`none` models an uncaught exception (`IndexError` on `youtube_caption[-1]`
for empty captions, or the bootstrap call's `ZeroDivisionError`). -/
def _sanity_check_data (wer cosine : String → String → ℚ) (audio_source_length : ℚ)
    (transcriptText : String) (transcriptList : List String)
    (captions : List TranscriptChunk) : Option Bool :=
  match captions.getLast? with
  | none => none
  | some lastCaption =>
    if lastCaption.«end» > audio_source_length then some false
    else
      let reference_str := referenceString captions
      let transcript_str := transcriptString transcriptText
      if wer reference_str transcript_str > 5/10 then some false
      else if cosine reference_str transcript_str < 9/10 then some false
      else
        match _align_youtube_caption_transcript_starting_points transcriptText
            transcriptList captions with
        | none => none
        | some (found, _, _) => if !found then some false else some true

/-- The accumulation loop of `Chunker._get_chunks` over
`self.transcript[1:]`, carrying the pending chunk.  Flushes the pending
chunk when extending it to the next segment's end would reach
`chunk_length`, capping an overlong fresh segment's end to
`start + chunk_length`. -/
def chunkLoop (chunk_length : ℚ) (pending : TranscriptChunk) :
    List TranscriptChunk → List TranscriptChunk
  | [] => [pending]
  | segment :: rest =>
    let current_length := pending.«end» - pending.start
    let addition_length := segment.«end» - pending.«end»
    if current_length + addition_length ≥ chunk_length then
      chunkLoop chunk_length
        { text := segment.text, start := segment.start,
          «end» := if segment.«end» - segment.start ≥ chunk_length
                   then segment.start + chunk_length else segment.«end» } rest
        |>.cons pending
    else
      chunkLoop chunk_length
        { text := pending.text ++ " " ++ segment.text, start := pending.start,
          «end» := segment.«end» } rest

/-- Model of `Chunker._get_chunks`.  `none` models the `IndexError` of
`self.transcript[0]` on an empty transcript.  (`chunk_length` is an `int`
in the source; spans are floats — both are modelled as `ℚ`.) -/
def _get_chunks (chunk_length : ℚ) (transcript : List TranscriptChunk) :
    Option (List TranscriptChunk) :=
  match transcript with
  | [] => none
  | first_segment :: rest =>
    let chunk_start := first_segment.start
    let chunk_end := if first_segment.«end» - chunk_start ≥ chunk_length
                     then chunk_start + chunk_length else first_segment.«end»
    some (chunkLoop chunk_length
      { text := first_segment.text, start := chunk_start, «end» := chunk_end } rest)

lemma mem_of_getLast?_eq {l : List α} {a : α} (h : l.getLast? = some a) : a ∈ l := by
  have hx : a ∈ l.getLast? := by rw [h]; rfl
  obtain ⟨hne, rfl⟩ := List.mem_getLast?_eq_getLast hx
  exact List.getLast_mem hne

/-- Input segments forming a contiguous chain of spans of exactly `span`
seconds, starting at time `t`. -/
def contiguousSpans (span : ℚ) : ℚ → List TranscriptChunk → Prop
  | _, [] => True
  | t, c :: cs => c.start = t ∧ c.«end» = t + span ∧ contiguousSpans span c.«end» cs

lemma chunkLoop_ne_nil (chunk_length : ℚ) (pending : TranscriptChunk)
    (rest : List TranscriptChunk) : chunkLoop chunk_length pending rest ≠ [] := by
  induction rest generalizing pending with
  | nil => simp [chunkLoop]
  | cons seg rest ih =>
    simp only [chunkLoop]
    split
    · simp
    · exact ih _

lemma chunkLoop_spans_twenty (rest : List TranscriptChunk) :
    ∀ pending : TranscriptChunk, contiguousSpans 10 pending.«end» rest →
    (pending.«end» - pending.start = 10 ∨ pending.«end» - pending.start = 20) →
    ∀ c ∈ (chunkLoop 30 pending rest).dropLast, c.«end» - c.start = 20 := by
  induction rest with
  | nil =>
    intro pending _ _ c hc
    simp [chunkLoop] at hc
  | cons seg rest ih =>
    intro pending hcont hspan c hc
    obtain ⟨hstart, hend, hcont'⟩ := hcont
    have hadd : seg.«end» - pending.«end» = 10 := by rw [hend]; ring
    simp only [chunkLoop] at hc
    rcases hspan with h10 | h20
    · rw [if_neg (by rw [h10, hadd]; norm_num)] at hc
      refine ih _ ?_ (Or.inr ?_) c hc
      · exact hcont'
      · show seg.«end» - pending.start = 20
        rw [hend]
        have : pending.«end» - pending.start = 10 := h10
        linarith
    · rw [if_pos (by rw [h20, hadd]; norm_num)] at hc
      have hsegspan : ¬(seg.«end» - seg.start ≥ 30) := by
        rw [hend, hstart]; norm_num
      rw [if_neg hsegspan] at hc
      obtain ⟨x, xs, hxx⟩ : ∃ x xs,
          chunkLoop 30 { text := seg.text, start := seg.start, «end» := seg.«end» } rest
            = x :: xs := by
        cases h : chunkLoop 30 { text := seg.text, start := seg.start, «end» := seg.«end» } rest with
        | nil => exact absurd h (chunkLoop_ne_nil _ _ _)
        | cons x xs => exact ⟨x, xs, rfl⟩
      rw [List.cons_eq_cons.mpr ⟨rfl, hxx⟩] at hc
      rw [List.dropLast_cons₂] at hc
      rcases List.mem_cons.mp hc with rfl | hc'
      · exact h20
      · rw [← hxx] at hc'
        refine ih _ ?_ (Or.inl ?_) c hc'
        · show contiguousSpans 10 seg.«end» rest
          exact hcont'
        · show seg.«end» - seg.start = 10
          rw [hend, hstart]; ring

/-- C5 (amended): for `chunk_length = 30` on a contiguous sequence of input
segments each spanning exactly 10 seconds, every output chunk except the
final remainder spans exactly 20 seconds (the flush fires before the
segment that would have brought the pending span to 30 is merged, so a
flushed chunk holds exactly two 10-second segments). -/
theorem chunker_ten_second_segments_twenty (first : TranscriptChunk)
    (rest : List TranscriptChunk) (out : List TranscriptChunk)
    (hfirst : first.«end» - first.start = 10)
    (hcont : contiguousSpans 10 first.«end» rest)
    (hout : _get_chunks 30 (first :: rest) = some out) :
    ∀ c ∈ out.dropLast, c.«end» - c.start = 20 := by
  simp only [_get_chunks] at hout
  rw [if_neg (by rw [hfirst]; norm_num)] at hout
  obtain rfl : chunkLoop 30 { text := first.text, start := first.start, «end» := first.«end» }
      rest = out := by
    injection hout
  exact chunkLoop_spans_twenty rest _ hcont (Or.inl hfirst)

/-- C5 (counterexample to the claim as stated): with `chunk_length = 30`
and four contiguous 10-second segments, the non-final output chunk spans
20 seconds, not 30. -/
theorem chunker_thirty_counterexample :
    _get_chunks 30 [⟨"a", 0, 10⟩, ⟨"b", 10, 20⟩, ⟨"c", 20, 30⟩, ⟨"d", 30, 40⟩] =
      some [⟨"a b", 0, 20⟩, ⟨"c d", 20, 40⟩] ∧
    ¬(∀ c ∈ ([⟨"a b", 0, 20⟩, ⟨"c d", 20, 40⟩] : List TranscriptChunk).dropLast,
        c.«end» - c.start = 30) := by
  refine ⟨?_, ?_⟩
  · norm_num [_get_chunks, chunkLoop]
    exact ⟨rfl, rfl⟩
  · intro h
    have := h ⟨"a b", 0, 20⟩ (by simp)
    norm_num at this

/-- C5 witness: the amended theorem applied to the concrete four-segment
input of the counterexample, instantiated at its one non-final chunk. -/
theorem chunker_ten_second_segments_twenty_witness :
    ({ text := "a b", start := 0, «end» := 20 } : TranscriptChunk).«end» -
      ({ text := "a b", start := 0, «end» := 20 } : TranscriptChunk).start = 20 :=
  chunker_ten_second_segments_twenty ⟨"a", 0, 10⟩
    [⟨"b", 10, 20⟩, ⟨"c", 20, 30⟩, ⟨"d", 30, 40⟩]
    [⟨"a b", 0, 20⟩, ⟨"c d", 20, 40⟩]
    (by norm_num) (by norm_num [contiguousSpans])
    (by norm_num [_get_chunks, chunkLoop]; exact ⟨rfl, rfl⟩)
    ⟨"a b", 0, 20⟩ (by simp)

/-- C10: a pending chunk that starts at a segment whose span reaches
`chunk_length` has its end capped to `start + chunk_length` while keeping
the segment's entire text — both at a flush boundary inside the loop and
for the first segment; in particular a one-segment input yields a single
chunk with the capped end and the full text. -/
theorem chunker_caps_overlong_first_segment (chunk_length : ℚ) (seg : TranscriptChunk)
    (h : seg.«end» - seg.start ≥ chunk_length) :
    (∀ pending rest,
       pending.«end» - pending.start + (seg.«end» - pending.«end») ≥ chunk_length →
       chunkLoop chunk_length pending (seg :: rest) =
         pending :: chunkLoop chunk_length
           { text := seg.text, start := seg.start, «end» := seg.start + chunk_length } rest) ∧
    _get_chunks chunk_length [seg] =
      some [{ text := seg.text, start := seg.start, «end» := seg.start + chunk_length }] := by
  constructor
  · intro pending rest hflush
    simp only [chunkLoop]
    rw [if_pos hflush, if_pos h]
  · simp only [_get_chunks]
    rw [if_pos h]
    rfl

/-- C10 witness: a 50-second single segment re-chunked at 30 seconds keeps
its whole text but is capped to end at 30. -/
theorem chunker_caps_overlong_first_segment_witness :
    _get_chunks 30 [⟨"hello world", 0, 50⟩] = some [⟨"hello world", 0, 30⟩] := by
  have h := (chunker_caps_overlong_first_segment 30 ⟨"hello world", 0, 50⟩ (by norm_num)).2
  rw [h]
  norm_num

/-- C4 (code behavior at the failing input): in the caption-longer
bootstrap case, the first 3-word transcript window match (window start
`i = 1`, found at position `3` inside the caption's word list) makes the
code trim the transcript at index `3` — the position of the window INSIDE
the caption — leaving `["cc"]`, instead of at the window's start index
`1`, which would leave `["aa", "bb", "cc"]` as the spec describes. -/
theorem bootstrap_case3_trims_at_match_not_window :
    _align_youtube_caption_transcript_starting_points "hello aa bb cc"
      ["hello", "aa", "bb", "cc"] [⟨"xx yy zz aa bb cc", 0, 6⟩] =
      some (true, [⟨"xx yy zz aa bb cc", 0, 6⟩], ["cc"]) ∧
    (["cc"] : List String) ≠ ["hello", "aa", "bb", "cc"].drop 1 := by
  constructor
  · have hsum : ((([⟨"xx yy zz aa bb cc", 0, 6⟩] : List TranscriptChunk).map
        (fun c => (pySplit c.text).length)).sum) = 6 := rfl
    have hcase : case3Search ["hello", "aa", "bb", "cc"] [⟨"xx yy zz aa bb cc", 0, 6⟩]
        = some (3, 0) := rfl
    simp only [_align_youtube_caption_transcript_starting_points, hsum, hcase]
    norm_num
  · decide

/-- C3 (amended): when the pair loop finishes with zero committed segments,
`_align_captions` fails with the `IndexError` of reading
`aligned_transcripts[-1]` from the empty result list — an uncaught generic
exception rather than a silent empty result, but not a distinct
`AlignmentExhaustedError` (no such error exists in the source). -/
theorem aligner_zero_commit_index_error (transcriptList : List String)
    (wc : String → Nat) (unmatchable : List String) (c0 : TranscriptChunk)
    (rest : List TranscriptChunk) (s : AlignState)
    (hloop : alignLoop transcriptList wc unmatchable c0.start ⟨0, 0, []⟩ (c0 :: rest)
       = some s)
    (hempty : s.aligned = []) :
    _align_captions transcriptList wc unmatchable (c0 :: rest) = .error .indexError := by
  obtain ⟨si, sl, sa⟩ := s
  change sa = [] at hempty
  subst hempty
  simp only [_align_captions, hloop]
  rfl

/-- C3 witness: spec scenario C — captions that are all single-word
stopword-first segments commit nothing, and the aligner errors out. -/
theorem aligner_zero_commit_index_error_witness :
    _align_captions ["x"] (fun _ => 0) ["the", "a", "is"]
      [⟨"the", 0, 1⟩, ⟨"a", 1, 2⟩, ⟨"is", 2, 3⟩] = .error .indexError :=
  aligner_zero_commit_index_error ["x"] (fun _ => 0) ["the", "a", "is"]
    ⟨"the", 0, 1⟩ [⟨"a", 1, 2⟩, ⟨"is", 2, 3⟩] ⟨0, 2, []⟩ rfl rfl

/-- C3 (counterexample to the claim as stated): on an all-stopword
single-word caption list the aligner raises the generic `IndexError`, not
an `AlignmentExhaustedError` — no such distinct error exists in the code. -/
theorem aligner_zero_commit_counterexample :
    _align_captions ["x"] (fun _ => 0) ["the", "a", "is"]
      [⟨"the", 0, 1⟩, ⟨"a", 1, 2⟩, ⟨"is", 2, 3⟩] = .error .indexError ∧
    _align_captions ["x"] (fun _ => 0) ["the", "a", "is"]
      [⟨"the", 0, 1⟩, ⟨"a", 1, 2⟩, ⟨"is", 2, 3⟩] ≠ .error .alignmentExhausted := by
  constructor
  · rfl
  · intro h
    exact PyError.noConfusion (Except.error.inj h)

/-- C8: the anchor validity filter returns `false` (skip this caption as
an anchor source) exactly when the caption text is a single word, or its
first word is absent from the transcript word-frequency table (all
normalized transcript words), or its first word is in the unmatchable-word
set; otherwise it returns `true`. -/
theorem validate_caption_iff (transcriptList : List String) (unmatchable : List String)
    (caption : TranscriptChunk) (w : String) (ws : List String)
    (hsplit : pySplit caption.text = w :: ws) :
    ∃ b, _validate_youtube_caption (_compute_word_counts_in_transcript transcriptList)
        unmatchable caption = some b ∧
      (b = false ↔ ((w :: ws).length = 1 ∨
        w ∉ transcriptList.map (fun x => remove_punctuation (pyLower x)) ∨
        w ∈ unmatchable)) := by
  simp only [_validate_youtube_caption, hsplit, List.head?_cons]
  by_cases h1 : (w :: ws).length = 1
  · refine ⟨false, by simp [h1], by simp [h1]⟩
  · rw [if_neg h1]
    by_cases h2 : _compute_word_counts_in_transcript transcriptList w = 0
    · refine ⟨false, by simp [h2], ?_⟩
      have : w ∉ transcriptList.map (fun x => remove_punctuation (pyLower x)) :=
        List.count_eq_zero.mp h2
      simp [this]
    · rw [if_neg h2]
      by_cases h3 : w ∈ unmatchable
      · refine ⟨false, by simp [h3], by simp [h3]⟩
      · refine ⟨true, by simp [h3], ?_⟩
        have hmem : w ∈ transcriptList.map (fun x => remove_punctuation (pyLower x)) := by
          by_contra hcon
          exact h2 (List.count_eq_zero.mpr hcon)
        have h1' : ws ≠ [] := fun h => h1 (by simp [h])
        simp [h1', h3, hmem]

/-- C8 witness: a two-word caption whose first word occurs in the
transcript table and is not unmatchable is accepted. -/
theorem validate_caption_iff_witness :
    ∃ b, _validate_youtube_caption (_compute_word_counts_in_transcript ["alpha", "beta"])
        ["the"] ⟨"beta alpha", 0, 1⟩ = some b ∧
      (b = false ↔ ((["beta", "alpha"] : List String).length = 1 ∨
        "beta" ∉ ["alpha", "beta"].map (fun x => remove_punctuation (pyLower x)) ∨
        "beta" ∈ ["the"])) :=
  validate_caption_iff ["alpha", "beta"] ["the"] ⟨"beta alpha", 0, 1⟩ "beta" ["alpha"] rfl

/-- C7: given a nonempty caption list and a bootstrap call that returns,
the sanity check returns a boolean, `true` exactly when all four checks
pass — duration bound, WER at most 0.5, cosine similarity at least 0.9,
and bootstrap success — and a duration-bound failure yields `false`
regardless of the later (short-circuited) checks. -/
theorem sanity_check_iff (wer cosine : String → String → ℚ) (audio_source_length : ℚ)
    (transcriptText : String) (transcriptList : List String)
    (captions : List TranscriptChunk) (lastCaption : TranscriptChunk)
    (found : Bool) (caps' : List TranscriptChunk) (ts' : List String)
    (hlast : captions.getLast? = some lastCaption)
    (hboot : _align_youtube_caption_transcript_starting_points transcriptText transcriptList
        captions = some (found, caps', ts')) :
    (lastCaption.«end» > audio_source_length →
       _sanity_check_data wer cosine audio_source_length transcriptText transcriptList captions
         = some false) ∧
    ∃ b, _sanity_check_data wer cosine audio_source_length transcriptText transcriptList captions
        = some b ∧
      (b = true ↔ (lastCaption.«end» ≤ audio_source_length ∧
        wer (referenceString captions) (transcriptString transcriptText) ≤ 5/10 ∧
        cosine (referenceString captions) (transcriptString transcriptText) ≥ 9/10 ∧
        found = true)) := by
  simp only [_sanity_check_data, hlast, hboot]
  constructor
  · intro hgt
    rw [if_pos hgt]
  · by_cases h1 : lastCaption.«end» > audio_source_length
    · refine ⟨false, by rw [if_pos h1], iff_of_false (by simp) ?_⟩
      rintro ⟨hle, -, -, -⟩
      exact absurd h1 (not_lt.mpr hle)
    · rw [if_neg h1]
      by_cases h2 : wer (referenceString captions) (transcriptString transcriptText) > 5/10
      · refine ⟨false, by rw [if_pos h2], iff_of_false (by simp) ?_⟩
        rintro ⟨-, hwer, -, -⟩
        exact absurd h2 (not_lt.mpr hwer)
      · rw [if_neg h2]
        by_cases h3 : cosine (referenceString captions) (transcriptString transcriptText) < 9/10
        · refine ⟨false, by rw [if_pos h3], iff_of_false (by simp) ?_⟩
          rintro ⟨-, -, hcos, -⟩
          exact absurd h3 (not_lt.mpr hcos)
        · rw [if_neg h3]
          cases found with
          | false =>
            refine ⟨false, rfl, iff_of_false (by simp) ?_⟩
            rintro ⟨-, -, -, h⟩
            exact Bool.false_ne_true h
          | true =>
            exact ⟨true, rfl,
              iff_of_true rfl ⟨not_lt.mp h1, not_lt.mp h2, not_lt.mp h3, rfl⟩⟩

/-- C7 witness: with identically-zero WER, identically-one cosine, ample
audio length and a balanced caption/transcript pair, the sanity check
passes. -/
theorem sanity_check_iff_witness :
    _sanity_check_data (fun _ _ => 0) (fun _ _ => 1) 10 "alpha beta gamma delta"
      ["alpha", "beta", "gamma", "delta"]
      [⟨"alpha beta", 0, 2⟩, ⟨"gamma delta", 2, 4⟩] = some true := by
  have hboot : _align_youtube_caption_transcript_starting_points "alpha beta gamma delta"
      ["alpha", "beta", "gamma", "delta"] [⟨"alpha beta", 0, 2⟩, ⟨"gamma delta", 2, 4⟩]
      = some (true, [⟨"alpha beta", 0, 2⟩, ⟨"gamma delta", 2, 4⟩],
          ["alpha", "beta", "gamma", "delta"]) := by
    have hsum : ((([⟨"alpha beta", 0, 2⟩, ⟨"gamma delta", 2, 4⟩] : List TranscriptChunk).map
        (fun c => (pySplit c.text).length)).sum) = 4 := rfl
    simp only [_align_youtube_caption_transcript_starting_points, hsum]
    norm_num
  obtain ⟨-, b, hb, hiff⟩ := sanity_check_iff (fun _ _ => 0) (fun _ _ => 1) 10
    "alpha beta gamma delta" ["alpha", "beta", "gamma", "delta"]
    [⟨"alpha beta", 0, 2⟩, ⟨"gamma delta", 2, 4⟩] ⟨"gamma delta", 2, 4⟩ true
    [⟨"alpha beta", 0, 2⟩, ⟨"gamma delta", 2, 4⟩] ["alpha", "beta", "gamma", "delta"]
    rfl hboot
  rw [hb, hiff.mpr ⟨by norm_num, by norm_num, by norm_num, rfl⟩]

lemma foldl_min_mem (key : Nat → Nat) (xs : List Nat) :
    ∀ a, xs.foldl (fun acc y => if key y < key acc then y else acc) a ∈ a :: xs := by
  induction xs with
  | nil => intro a; simp
  | cons y ys ih =>
    intro a
    simp only [List.foldl_cons]
    by_cases hk : key y < key a
    · rw [if_pos hk]
      rcases List.mem_cons.mp (ih y) with h | h
      · simp [h]
      · simp [h]
    · rw [if_neg hk]
      rcases List.mem_cons.mp (ih a) with h | h
      · simp [h]
      · simp [h]

lemma pythonMinBy_mem (key : Nat → Nat) (x : Nat) (xs : List Nat) :
    pythonMinBy key (x :: xs) ∈ x :: xs :=
  foldl_min_mem key xs x

lemma anchorMatches_sublist (transcriptList : List String) (i l b : Nat) (w : String) :
    List.Sublist (anchorMatches transcriptList i l b w)
      (List.range (searchRange transcriptList i l b).length) := by
  unfold anchorMatches
  have h1 := (List.filter_sublist (l := (searchRange transcriptList i l b).enum)
    (p := fun p => normWord p.2 == normWord w)).map Prod.fst
  rwa [List.enum_map_fst] at h1

lemma anchorMatches_lt (transcriptList : List String) (i l b : Nat) (w : String)
    (m : Nat) (hm : m ∈ anchorMatches transcriptList i l b w) :
    m < (searchRange transcriptList i l b).length :=
  List.mem_range.mp ((anchorMatches_sublist transcriptList i l b w).subset hm)

lemma anchorMatches_sorted (transcriptList : List String) (i l b : Nat) (w : String) :
    List.Pairwise (· < ·) (anchorMatches transcriptList i l b w) :=
  (List.pairwise_lt_range _).sublist (anchorMatches_sublist transcriptList i l b w)

lemma searchRange_eq (transcriptList : List String) (i l : Nat) :
    searchRange transcriptList i l l =
      (transcriptList.drop i).take (min (i + l + l) transcriptList.length - i) := by
  unfold searchRange pySlice
  rw [Nat.add_sub_cancel, List.drop_take]

lemma searchRange_length (transcriptList : List String) (i l : Nat) :
    (searchRange transcriptList i l l).length =
      min (i + l + l) transcriptList.length - i := by
  rw [searchRange_eq, List.length_take, List.length_drop]
  omega

lemma searchRange_take (transcriptList : List String) (i l k : Nat)
    (hk : k ≤ (searchRange transcriptList i l l).length) :
    (searchRange transcriptList i l l).take k = (transcriptList.drop i).take k := by
  rw [searchRange_eq, List.take_take]
  congr 1
  rw [searchRange_length] at hk
  omega

lemma searchRange_subset (transcriptList : List String) (i l b : Nat) (w : String)
    (hw : w ∈ searchRange transcriptList i l b) : w ∈ transcriptList := by
  unfold searchRange pySlice at hw
  exact List.mem_of_mem_take (List.mem_of_mem_drop hw)

/-- Case analysis of one aligner iteration: either nothing is committed and
`aligned`/`start_index` are unchanged, or a segment is committed at a match
position `k` inside the search window — with text the window's first `k`
words, start the previous end (or the first caption's start), and end the
next caption's start — and `start_index` advances by `k`. -/
lemma alignStep_spec (transcriptList : List String) (wc : String → Nat)
    (unmatchable : List String) (caption0start : ℚ) (s s' : AlignState)
    (cur next : TranscriptChunk)
    (h : alignStep transcriptList wc unmatchable caption0start s cur next = some s') :
    (s'.aligned = s.aligned ∧ s'.start_index = s.start_index) ∨
    (∃ k, k < (searchRange transcriptList s.start_index
         (s.len_cur_text + (pySplit cur.text).length)
         (s.len_cur_text + (pySplit cur.text).length)).length ∧
       s'.start_index = s.start_index + k ∧
       s'.aligned = s.aligned ++
         [{ text := joinWords ((searchRange transcriptList s.start_index
              (s.len_cur_text + (pySplit cur.text).length)
              (s.len_cur_text + (pySplit cur.text).length)).take k),
            start := lastEnd caption0start s.aligned, «end» := next.start }]) := by
  simp only [alignStep] at h
  cases hval : _validate_youtube_caption wc unmatchable next with
  | none =>
    simp only [hval] at h
    exact absurd h (by simp)
  | some b =>
    simp only [hval] at h
    cases b with
    | false =>
      obtain rfl := Option.some.inj h
      exact Or.inl ⟨rfl, rfl⟩
    | true =>
      cases hsp : pySplit next.text with
      | nil =>
        simp only [hsp] at h
        exact absurd h (by simp)
      | cons w ws =>
        simp only [hsp] at h
        set L := s.len_cur_text + (pySplit cur.text).length with hL
        by_cases hms : anchorMatches transcriptList s.start_index L L w = []
        · rw [if_pos hms] at h
          obtain rfl := Option.some.inj h
          exact Or.inl ⟨rfl, rfl⟩
        · rw [if_neg hms] at h
          by_cases hlen : (anchorMatches transcriptList s.start_index L L w).length > 2
          · rw [if_pos hlen] at h
            obtain rfl := Option.some.inj h
            exact Or.inl ⟨rfl, rfl⟩
          · rw [if_neg hlen] at h
            obtain rfl := Option.some.inj h
            obtain ⟨m0, ms', hconsEq⟩ :=
              List.exists_cons_of_ne_nil hms
            set k := pythonMinBy
                (fun x => ((x : ℤ) -
                  (((searchRange transcriptList s.start_index L L).length / 2 : Nat) : ℤ)).natAbs)
                (anchorMatches transcriptList s.start_index L L w) with hkdef
            have hkmem : k ∈ anchorMatches transcriptList s.start_index L L w := by
              rw [hkdef, hconsEq]
              exact pythonMinBy_mem _ m0 ms'
            refine Or.inr ⟨k, anchorMatches_lt _ _ _ _ _ _ hkmem, ?_, rfl⟩
            show s.start_index + (L - L + k) = s.start_index + k
            omega

/-- The `_align_captions` loop invariant: the words of the committed
segments are exactly the first `start_index` transcript words, in order. -/
def CoverInv (transcriptList : List String) (s : AlignState) : Prop :=
  (s.aligned.map (fun c => pySplit c.text)).flatten =
    transcriptList.take s.start_index ∧
  s.start_index ≤ transcriptList.length

lemma alignStep_inv (transcriptList : List String) (wc : String → Nat)
    (unmatchable : List String) (caption0start : ℚ) (s s' : AlignState)
    (cur next : TranscriptChunk)
    (htok : ∀ w ∈ transcriptList, GoodToken w)
    (h : alignStep transcriptList wc unmatchable caption0start s cur next = some s')
    (hinv : CoverInv transcriptList s) : CoverInv transcriptList s' := by
  rcases alignStep_spec transcriptList wc unmatchable caption0start s s' cur next h with
    ⟨ha, hi⟩ | ⟨k, hk, hi, ha⟩
  · exact ⟨by rw [ha, hi]; exact hinv.1, hi ▸ hinv.2⟩
  · constructor
    · have hseg : pySplit (joinWords ((searchRange transcriptList s.start_index
          (s.len_cur_text + (pySplit cur.text).length)
          (s.len_cur_text + (pySplit cur.text).length)).take k))
          = (searchRange transcriptList s.start_index
              (s.len_cur_text + (pySplit cur.text).length)
              (s.len_cur_text + (pySplit cur.text).length)).take k := by
        apply pySplit_join_goodTokens
        intro w hw
        exact htok w (searchRange_subset _ _ _ _ _ (List.mem_of_mem_take hw))
      rw [ha, List.map_append, List.flatten_append]
      simp only [List.map_cons, List.map_nil, List.flatten_cons, List.flatten_nil,
        List.append_nil]
      rw [hinv.1, hseg, searchRange_take _ _ _ _ (le_of_lt hk), hi, List.take_add]
    · rw [hi]
      have hlen := hk
      rw [searchRange_length] at hlen
      omega

lemma alignLoop_inv (transcriptList : List String) (wc : String → Nat)
    (unmatchable : List String) (caption0start : ℚ)
    (htok : ∀ w ∈ transcriptList, GoodToken w) :
    ∀ (caps : List TranscriptChunk) (s s' : AlignState),
    alignLoop transcriptList wc unmatchable caption0start s caps = some s' →
    CoverInv transcriptList s → CoverInv transcriptList s' := by
  intro caps
  induction caps with
  | nil =>
    intro s s' h hinv
    obtain rfl := Option.some.inj h
    exact hinv
  | cons c1 tail ih =>
    intro s s' h hinv
    cases tail with
    | nil =>
      obtain rfl := Option.some.inj h
      exact hinv
    | cons c2 rest =>
      simp only [alignLoop] at h
      cases hstep : alignStep transcriptList wc unmatchable caption0start s c1 c2 with
      | none =>
        simp only [hstep] at h
        exact absurd h (by simp)
      | some s1 =>
        simp only [hstep] at h
        exact ih s1 s' h
          (alignStep_inv transcriptList wc unmatchable caption0start s s1 c1 c2 htok
            hstep hinv)

/-- C1: whenever the anchor-based aligner completes (returns a result,
which requires at least one committed segment), joining all output `text`
fields with spaces and re-splitting on whitespace reconstructs exactly the
input transcript word sequence — every word once, in order, no gaps, no
duplicates. -/
theorem aligner_full_coverage (transcriptList : List String) (wc : String → Nat)
    (unmatchable : List String) (captions out : List TranscriptChunk)
    (htok : ∀ w ∈ transcriptList, GoodToken w)
    (hout : _align_captions transcriptList wc unmatchable captions = .ok out) :
    pySplit (joinWords (out.map (fun c => c.text))) = transcriptList := by
  cases captions with
  | nil => exact absurd hout (by simp [_align_captions])
  | cons c0 caps =>
    simp only [_align_captions] at hout
    cases hloop : alignLoop transcriptList wc unmatchable c0.start ⟨0, 0, []⟩ (c0 :: caps) with
    | none =>
      simp only [hloop] at hout
      exact absurd hout (by simp)
    | some s =>
      simp only [hloop] at hout
      cases hla : s.aligned.getLast? with
      | none =>
        simp only [hla] at hout
        exact absurd hout (by simp)
      | some last_aligned =>
        simp only [hla] at hout
        cases hlc : (c0 :: caps).getLast? with
        | none =>
          simp only [hlc] at hout
          exact absurd hout (by simp)
        | some last_caption =>
          simp only [hlc] at hout
          obtain rfl := (Except.ok.inj hout).symm
          have hinv : CoverInv transcriptList s :=
            alignLoop_inv transcriptList wc unmatchable c0.start htok (c0 :: caps)
              ⟨0, 0, []⟩ s hloop ⟨by simp, by simp⟩
          have hfinal : pySplit (joinWords (transcriptList.drop s.start_index))
              = transcriptList.drop s.start_index := by
            apply pySplit_join_goodTokens
            intro w hw
            exact htok w (List.mem_of_mem_drop hw)
          rw [pySplit_joinWords, List.map_map, List.map_append, List.flatten_append]
          simp only [Function.comp_def, List.map_cons, List.map_nil, List.flatten_cons,
            List.flatten_nil, List.append_nil]
          rw [hinv.1, hfinal, List.take_append_drop]

/-- C1 witness: a two-caption, four-word session with one commit whose
output texts re-split to the original word sequence. -/
theorem aligner_full_coverage_witness :
    pySplit (joinWords (([⟨"alpha beta", 0, 2⟩, ⟨"gamma delta", 2, 4⟩] :
        List TranscriptChunk).map (fun c => c.text))) =
      ["alpha", "beta", "gamma", "delta"] :=
  aligner_full_coverage ["alpha", "beta", "gamma", "delta"]
    (_compute_word_counts_in_transcript ["alpha", "beta", "gamma", "delta"]) []
    [⟨"alpha beta", 0, 2⟩, ⟨"gamma delta", 2, 4⟩]
    [⟨"alpha beta", 0, 2⟩, ⟨"gamma delta", 2, 4⟩]
    (by decide) rfl

/-- The output shape asserted by the spec: each segment starts exactly at
`t` for the first and at the previous segment's end thereafter. -/
def chunkChain : ℚ → List TranscriptChunk → Prop
  | _, [] => True
  | t, c :: cs => c.start = t ∧ chunkChain c.«end» cs

lemma lastEnd_cons (t : ℚ) (c : TranscriptChunk) (cs : List TranscriptChunk) :
    lastEnd t (c :: cs) = lastEnd c.«end» cs := by
  cases cs with
  | nil => rfl
  | cons d ds =>
    cases h : (d :: ds).getLast? with
    | none => simp at h
    | some x => simp [lastEnd, List.getLast?_cons_cons, h]

lemma lastEnd_append_single (t : ℚ) (l : List TranscriptChunk) (seg : TranscriptChunk) :
    lastEnd t (l ++ [seg]) = seg.«end» := by
  simp [lastEnd, List.getLast?_concat]

lemma chunkChain_append (l : List TranscriptChunk) (seg : TranscriptChunk) :
    ∀ t, chunkChain t l → seg.start = lastEnd t l → chunkChain t (l ++ [seg]) := by
  induction l with
  | nil =>
    intro t _ hstart
    exact ⟨hstart, trivial⟩
  | cons c cs ih =>
    intro t hchain hstart
    exact ⟨hchain.1, ih c.«end» hchain.2 (by rwa [lastEnd_cons] at hstart)⟩

lemma chunkChain_le (l : List TranscriptChunk) :
    ∀ t, chunkChain t l → (∀ c ∈ l, c.start ≤ c.«end») → ∀ c ∈ l, t ≤ c.start := by
  induction l with
  | nil => intro t _ _ c hc; cases hc
  | cons d ds ih =>
    intro t hchain hloc c hc
    rcases List.mem_cons.mp hc with rfl | hc'
    · exact le_of_eq hchain.1.symm
    · calc t = d.start := hchain.1.symm
        _ ≤ d.«end» := hloc d (by simp)
        _ ≤ c.start := ih d.«end» hchain.2 (fun x hx => hloc x (by simp [hx])) c hc'

lemma chunkChain_pairwise (l : List TranscriptChunk) :
    ∀ t, chunkChain t l → (∀ c ∈ l, c.start ≤ c.«end») →
      List.Pairwise (fun a b => a.«end» ≤ b.start) l := by
  induction l with
  | nil => intro _ _ _; exact List.Pairwise.nil
  | cons d ds ih =>
    intro t hchain hloc
    refine List.pairwise_cons.mpr
      ⟨?_, ih d.«end» hchain.2 (fun x hx => hloc x (by simp [hx]))⟩
    intro b hb
    exact chunkChain_le ds d.«end» hchain.2 (fun x hx => hloc x (by simp [hx])) b hb

lemma alignLoop_mono (transcriptList : List String) (wc : String → Nat)
    (unmatchable : List String) (caption0start : ℚ) :
    ∀ (caps : List TranscriptChunk) (s s' : AlignState),
    alignLoop transcriptList wc unmatchable caption0start s caps = some s' →
    List.Chain' (fun a b => a.start ≤ b.start) caps →
    chunkChain caption0start s.aligned →
    (∀ c ∈ s.aligned, c.start ≤ c.«end») →
    (∀ ch, caps.head? = some ch → lastEnd caption0start s.aligned ≤ ch.start) →
    chunkChain caption0start s'.aligned ∧
    (∀ c ∈ s'.aligned, c.start ≤ c.«end») ∧
    (∀ cl, caps.getLast? = some cl → lastEnd caption0start s'.aligned ≤ cl.start) := by
  intro caps
  induction caps with
  | nil =>
    intro s s' h _ hchain hloc _
    obtain rfl := Option.some.inj h
    exact ⟨hchain, hloc, fun cl hcl => by cases hcl⟩
  | cons c1 tail ih =>
    intro s s' h hsorted hchain hloc hhead
    cases tail with
    | nil =>
      obtain rfl := Option.some.inj h
      refine ⟨hchain, hloc, fun cl hcl => ?_⟩
      obtain rfl : c1 = cl := by simpa using hcl
      exact hhead _ rfl
    | cons c2 rest =>
      simp only [alignLoop] at h
      cases hstep : alignStep transcriptList wc unmatchable caption0start s c1 c2 with
      | none =>
        simp only [hstep] at h
        exact absurd h (by simp)
      | some s1 =>
        simp only [hstep] at h
        have h12 : c1.start ≤ c2.start := (List.chain'_cons.mp hsorted).1
        have hrec := ih s1 s' h (List.chain'_cons.mp hsorted).2
        rcases alignStep_spec transcriptList wc unmatchable caption0start s s1 c1 c2 hstep
          with ⟨ha, _⟩ | ⟨k, _, _, ha⟩
        · have hres := hrec (ha ▸ hchain) (ha ▸ hloc)
            (fun ch hch => by
              obtain rfl : c2 = ch := by simpa using hch
              exact le_trans (by rw [ha]; exact hhead c1 rfl) h12)
          exact ⟨hres.1, hres.2.1, fun cl hcl =>
            hres.2.2 cl (by rwa [List.getLast?_cons_cons] at hcl)⟩
        · have hstartle : lastEnd caption0start s.aligned ≤ c1.start := hhead c1 rfl
          have hchain1 : chunkChain caption0start s1.aligned := by
            rw [ha]
            exact chunkChain_append s.aligned _ caption0start hchain rfl
          have hloc1 : ∀ c ∈ s1.aligned, c.start ≤ c.«end» := by
            rw [ha]
            intro c hc
            rcases List.mem_append.mp hc with hc' | hc'
            · exact hloc c hc'
            · obtain rfl : c = _ := by simpa using hc'
              exact le_trans hstartle h12
          have hres := hrec hchain1 hloc1
            (fun ch hch => by
              obtain rfl : c2 = ch := by simpa using hch
              rw [ha, lastEnd_append_single])
          exact ⟨hres.1, hres.2.1, fun cl hcl =>
            hres.2.2 cl (by rwa [List.getLast?_cons_cons] at hcl)⟩

/-- C2: on captions with non-decreasing start times and well-formed spans
(`end >= start`), a completed alignment yields segments forming a chain —
the first starts at the first caption's start and each next segment starts
at the previous one's end — with `end >= start` for every segment, hence
pairwise non-overlapping and non-decreasing. -/
theorem aligner_output_monotone (transcriptList : List String) (wc : String → Nat)
    (unmatchable : List String) (c0 : TranscriptChunk) (caps out : List TranscriptChunk)
    (hsorted : List.Chain' (fun a b => a.start ≤ b.start) (c0 :: caps))
    (hwf : ∀ c ∈ c0 :: caps, c.start ≤ c.«end»)
    (hout : _align_captions transcriptList wc unmatchable (c0 :: caps) = .ok out) :
    chunkChain c0.start out ∧ (∀ c ∈ out, c.start ≤ c.«end») ∧
    List.Pairwise (fun a b => a.«end» ≤ b.start) out := by
  simp only [_align_captions] at hout
  cases hloop : alignLoop transcriptList wc unmatchable c0.start ⟨0, 0, []⟩ (c0 :: caps) with
  | none =>
    simp only [hloop] at hout
    exact absurd hout (by simp)
  | some s =>
    simp only [hloop] at hout
    cases hla : s.aligned.getLast? with
    | none =>
      simp only [hla] at hout
      exact absurd hout (by simp)
    | some last_aligned =>
      simp only [hla] at hout
      cases hlc : (c0 :: caps).getLast? with
      | none =>
        simp only [hlc] at hout
        exact absurd hout (by simp)
      | some last_caption =>
        simp only [hlc] at hout
        obtain rfl := (Except.ok.inj hout).symm
        obtain ⟨hchain, hloc, hlast⟩ := alignLoop_mono transcriptList wc unmatchable
          c0.start (c0 :: caps) ⟨0, 0, []⟩ s hloop hsorted trivial (by simp)
          (fun ch hch => by
            obtain rfl : c0 = ch := by simpa using hch
            exact le_refl _)
        have hlae : lastEnd c0.start s.aligned = last_aligned.«end» := by
          simp [lastEnd, hla]
        have hfs : lastEnd c0.start s.aligned ≤ last_caption.start := hlast _ hlc
        have hlcmem : last_caption ∈ c0 :: caps := mem_of_getLast?_eq hlc
        have hchainO : chunkChain c0.start (s.aligned ++
            [{ text := joinWords (transcriptList.drop s.start_index),
               start := last_aligned.«end», «end» := last_caption.«end» }]) :=
          chunkChain_append s.aligned _ c0.start hchain (by rw [hlae])
        have hlocO : ∀ c ∈ (s.aligned ++
            [{ text := joinWords (transcriptList.drop s.start_index),
               start := last_aligned.«end», «end» := last_caption.«end» }]),
            c.start ≤ c.«end» := by
          intro c hc
          rcases List.mem_append.mp hc with hc' | hc'
          · exact hloc c hc'
          · obtain rfl : c = _ := by simpa using hc'
            show last_aligned.«end» ≤ last_caption.«end»
            calc last_aligned.«end» = lastEnd c0.start s.aligned := hlae.symm
              _ ≤ last_caption.start := hfs
              _ ≤ last_caption.«end» := hwf last_caption hlcmem
        exact ⟨hchainO, hlocO, chunkChain_pairwise _ c0.start hchainO hlocO⟩

/-- C2 witness: the two-caption session of the C1 witness satisfies the
chain, local well-formedness, and pairwise non-overlap properties. -/
theorem aligner_output_monotone_witness :
    chunkChain (0 : ℚ) ([⟨"alpha beta", 0, 2⟩, ⟨"gamma delta", 2, 4⟩] :
        List TranscriptChunk) ∧
    (∀ c ∈ ([⟨"alpha beta", 0, 2⟩, ⟨"gamma delta", 2, 4⟩] : List TranscriptChunk),
      c.start ≤ c.«end») ∧
    List.Pairwise (fun a b => a.«end» ≤ b.start)
      ([⟨"alpha beta", 0, 2⟩, ⟨"gamma delta", 2, 4⟩] : List TranscriptChunk) :=
  aligner_output_monotone ["alpha", "beta", "gamma", "delta"]
    (_compute_word_counts_in_transcript ["alpha", "beta", "gamma", "delta"]) []
    ⟨"alpha beta", 0, 2⟩ [⟨"gamma delta", 2, 4⟩]
    [⟨"alpha beta", 0, 2⟩, ⟨"gamma delta", 2, 4⟩]
    (by norm_num [List.chain'_cons])
    (by intro c hc; fin_cases hc <;> norm_num)
    rfl

/-- C9: in every aligner iteration, since `buffer = len_cur_text`, the
search window starts exactly at `start_index` (the first unconsumed
transcript word); a step never decreases `start_index`, and any committed
text consists exactly of the transcript words from the old `start_index`
up to the new one — so words below `start_index` are never searched or
re-emitted. -/
theorem aligner_window_lower_bound (transcriptList : List String) (wc : String → Nat)
    (unmatchable : List String) (caption0start : ℚ) (s s' : AlignState)
    (cur next : TranscriptChunk)
    (htok : ∀ w ∈ transcriptList, GoodToken w)
    (hstep : alignStep transcriptList wc unmatchable caption0start s cur next = some s') :
    (∀ l, searchRange transcriptList s.start_index l l =
       (transcriptList.drop s.start_index).take
         (min (s.start_index + l + l) transcriptList.length - s.start_index)) ∧
    s.start_index ≤ s'.start_index ∧
    (s'.aligned = s.aligned ∨
      ∃ seg, s'.aligned = s.aligned ++ [seg] ∧
        pySplit seg.text =
          (transcriptList.drop s.start_index).take (s'.start_index - s.start_index)) := by
  rcases alignStep_spec transcriptList wc unmatchable caption0start s s' cur next hstep with
    ⟨ha, hi⟩ | ⟨k, hk, hi, ha⟩
  · exact ⟨fun l => searchRange_eq transcriptList s.start_index l,
      le_of_eq hi.symm, Or.inl ha⟩
  · refine ⟨fun l => searchRange_eq transcriptList s.start_index l, by omega, Or.inr ?_⟩
    refine ⟨_, ha, ?_⟩
    have hseg : pySplit (joinWords ((searchRange transcriptList s.start_index
        (s.len_cur_text + (pySplit cur.text).length)
        (s.len_cur_text + (pySplit cur.text).length)).take k))
        = (searchRange transcriptList s.start_index
            (s.len_cur_text + (pySplit cur.text).length)
            (s.len_cur_text + (pySplit cur.text).length)).take k := by
      apply pySplit_join_goodTokens
      intro x hx
      exact htok x (searchRange_subset _ _ _ _ _ (List.mem_of_mem_take hx))
    rw [hseg, searchRange_take _ _ _ _ (le_of_lt hk), hi]
    congr 1
    omega

/-- C9 witness: the first (committing) iteration of the C1 witness session
searches the window starting at `start_index = 0` and emits exactly the
first two transcript words. -/
theorem aligner_window_lower_bound_witness :
    (∀ l, searchRange ["alpha", "beta", "gamma", "delta"] (0 : Nat) l l =
       ((["alpha", "beta", "gamma", "delta"] : List String).drop 0).take
         (min (0 + l + l) (["alpha", "beta", "gamma", "delta"] : List String).length - 0)) ∧
    (0 : Nat) ≤ (2 : Nat) ∧
    (([⟨"alpha beta", 0, 2⟩] : List TranscriptChunk) = [] ∨
      ∃ seg, ([⟨"alpha beta", 0, 2⟩] : List TranscriptChunk) = [] ++ [seg] ∧
        pySplit seg.text =
          ((["alpha", "beta", "gamma", "delta"] : List String).drop 0).take (2 - 0)) := by
  have h := aligner_window_lower_bound ["alpha", "beta", "gamma", "delta"]
    (_compute_word_counts_in_transcript ["alpha", "beta", "gamma", "delta"]) [] 0
    ⟨0, 0, []⟩ ⟨2, 0, [⟨"alpha beta", 0, 2⟩]⟩ ⟨"alpha beta", 0, 2⟩ ⟨"gamma delta", 2, 4⟩
    (by decide) rfl
  exact h

lemma pythonMinBy_pair_spec (key : Nat → Nat) (a b : Nat) (hab : a < b) :
    pythonMinBy key [a, b] ∈ [a, b] ∧
    (∀ m ∈ [a, b], key (pythonMinBy key [a, b]) ≤ key m) ∧
    (∀ m ∈ [a, b], key m = key (pythonMinBy key [a, b]) → pythonMinBy key [a, b] ≤ m) := by
  have hdef : pythonMinBy key [a, b] = if key b < key a then b else a := rfl
  by_cases hk : key b < key a
  · rw [hdef, if_pos hk]
    refine ⟨by simp, ?_, ?_⟩
    · intro m hm
      rcases List.mem_cons.mp hm with rfl | hm'
      · exact le_of_lt hk
      · obtain rfl : m = b := by simpa using hm'
        exact le_refl _
    · intro m hm hkey
      rcases List.mem_cons.mp hm with rfl | hm'
      · rw [hkey] at hk
        exact absurd hk (lt_irrefl _)
      · obtain rfl : m = b := by simpa using hm'
        exact le_refl _
  · rw [hdef, if_neg hk]
    refine ⟨by simp, ?_, ?_⟩
    · intro m hm
      rcases List.mem_cons.mp hm with rfl | hm'
      · exact le_refl _
      · obtain rfl : m = b := by simpa using hm'
        exact not_lt.mp hk
    · intro m hm _
      rcases List.mem_cons.mp hm with rfl | hm'
      · exact le_refl _
      · obtain rfl : m = b := by simpa using hm'
        exact le_of_lt hab

/-- C6: when the anchor's normalized matches in the window are more than
two, the iteration commits nothing (state carries the accumulated word
count); when there are one or two, a segment is committed at the
occurrence closest to the window midpoint, ties resolved to the occurrence
found first (the smaller index). -/
theorem aligner_match_policy (transcriptList : List String) (wc : String → Nat)
    (unmatchable : List String) (caption0start : ℚ) (s : AlignState)
    (cur next : TranscriptChunk) (w : String) (ws : List String) (L C : Nat)
    (hval : _validate_youtube_caption wc unmatchable next = some true)
    (hsplit : pySplit next.text = w :: ws)
    (hL : L = s.len_cur_text + (pySplit cur.text).length)
    (hC : C = (searchRange transcriptList s.start_index L L).length / 2)
    (hne : anchorMatches transcriptList s.start_index L L w ≠ []) :
    ((anchorMatches transcriptList s.start_index L L w).length > 2 →
       alignStep transcriptList wc unmatchable caption0start s cur next =
         some { s with len_cur_text := L }) ∧
    ((anchorMatches transcriptList s.start_index L L w).length ≤ 2 →
       ∃ chosen, chosen ∈ anchorMatches transcriptList s.start_index L L w ∧
         (∀ m ∈ anchorMatches transcriptList s.start_index L L w,
            ((chosen : ℤ) - (C : ℤ)).natAbs ≤ ((m : ℤ) - (C : ℤ)).natAbs) ∧
         (∀ m ∈ anchorMatches transcriptList s.start_index L L w,
            ((m : ℤ) - (C : ℤ)).natAbs = ((chosen : ℤ) - (C : ℤ)).natAbs → chosen ≤ m) ∧
         alignStep transcriptList wc unmatchable caption0start s cur next =
           some { start_index := s.start_index + chosen, len_cur_text := 0,
                  aligned := s.aligned ++
                    [{ text := joinWords
                         ((searchRange transcriptList s.start_index L L).take chosen),
                       start := lastEnd caption0start s.aligned,
                       «end» := next.start }] }) := by
  subst hL hC
  have hunfold : alignStep transcriptList wc unmatchable caption0start s cur next =
      (if anchorMatches transcriptList s.start_index
            (s.len_cur_text + (pySplit cur.text).length)
            (s.len_cur_text + (pySplit cur.text).length) w = [] then
        some { s with len_cur_text := s.len_cur_text + (pySplit cur.text).length }
      else if (anchorMatches transcriptList s.start_index
            (s.len_cur_text + (pySplit cur.text).length)
            (s.len_cur_text + (pySplit cur.text).length) w).length > 2 then
        some { s with len_cur_text := s.len_cur_text + (pySplit cur.text).length }
      else
        some { start_index := s.start_index +
                 (s.len_cur_text + (pySplit cur.text).length -
                   (s.len_cur_text + (pySplit cur.text).length) +
                  pythonMinBy (fun x => ((x : ℤ) -
                    (((searchRange transcriptList s.start_index
                        (s.len_cur_text + (pySplit cur.text).length)
                        (s.len_cur_text + (pySplit cur.text).length)).length / 2 : Nat) : ℤ)).natAbs)
                    (anchorMatches transcriptList s.start_index
                      (s.len_cur_text + (pySplit cur.text).length)
                      (s.len_cur_text + (pySplit cur.text).length) w)),
               len_cur_text := 0,
               aligned := s.aligned ++
                 [{ text := joinWords
                      ((searchRange transcriptList s.start_index
                          (s.len_cur_text + (pySplit cur.text).length)
                          (s.len_cur_text + (pySplit cur.text).length)).take
                        (pythonMinBy (fun x => ((x : ℤ) -
                          (((searchRange transcriptList s.start_index
                              (s.len_cur_text + (pySplit cur.text).length)
                              (s.len_cur_text + (pySplit cur.text).length)).length / 2 : Nat) : ℤ)).natAbs)
                          (anchorMatches transcriptList s.start_index
                            (s.len_cur_text + (pySplit cur.text).length)
                            (s.len_cur_text + (pySplit cur.text).length) w))),
                    start := lastEnd caption0start s.aligned,
                    «end» := next.start }] }) := by
    simp only [alignStep, hval, hsplit]
  constructor
  · intro hgt
    rw [hunfold, if_neg hne, if_pos hgt]
  · intro hle
    obtain ⟨a, tl, hcons⟩ := List.exists_cons_of_ne_nil hne
    cases tl with
    | nil =>
      refine ⟨a, by rw [hcons]; simp, ?_, ?_, ?_⟩
      · intro m hm
        rw [hcons] at hm
        obtain rfl : m = a := by simpa using hm
        exact le_refl _
      · intro m hm _
        rw [hcons] at hm
        obtain rfl : m = a := by simpa using hm
        exact le_refl _
      · rw [hunfold, if_neg hne, if_neg (by rw [hcons]; norm_num), hcons]
        simp [pythonMinBy]
    | cons b tl2 =>
      cases tl2 with
      | cons x tl3 =>
        rw [hcons] at hle
        simp at hle
      | nil =>
        have hab : a < b := by
          have hs := anchorMatches_sorted transcriptList s.start_index
            (s.len_cur_text + (pySplit cur.text).length)
            (s.len_cur_text + (pySplit cur.text).length) w
          rw [hcons] at hs
          exact (List.pairwise_cons.mp hs).1 b (by simp)
        obtain ⟨hmem, hmin, hties⟩ := pythonMinBy_pair_spec
          (fun x => ((x : ℤ) -
            (((searchRange transcriptList s.start_index
                (s.len_cur_text + (pySplit cur.text).length)
                (s.len_cur_text + (pySplit cur.text).length)).length / 2 : Nat) : ℤ)).natAbs)
          a b hab
        refine ⟨_, by rw [hcons]; exact hmem, ?_, ?_, ?_⟩
        · intro m hm
          rw [hcons] at hm
          exact hmin m hm
        · intro m hm hkey
          rw [hcons] at hm
          exact hties m hm hkey
        · rw [hunfold, if_neg hne, if_neg (by rw [hcons]; norm_num)]
          rw [hcons]
          congr 2
          omega

/-- C6 witness: the committing iteration of the C1 witness session, where
the anchor word has exactly one window match at index 2. -/
theorem aligner_match_policy_witness :
    ((anchorMatches ["alpha", "beta", "gamma", "delta"] 0 2 2 "gamma").length > 2 →
       alignStep ["alpha", "beta", "gamma", "delta"]
         (_compute_word_counts_in_transcript ["alpha", "beta", "gamma", "delta"]) [] 0
         ⟨0, 0, []⟩ ⟨"alpha beta", 0, 2⟩ ⟨"gamma delta", 2, 4⟩ = some ⟨0, 2, []⟩) ∧
    ((anchorMatches ["alpha", "beta", "gamma", "delta"] 0 2 2 "gamma").length ≤ 2 →
       ∃ chosen, chosen ∈ anchorMatches ["alpha", "beta", "gamma", "delta"] 0 2 2 "gamma" ∧
         (∀ m ∈ anchorMatches ["alpha", "beta", "gamma", "delta"] 0 2 2 "gamma",
            ((chosen : ℤ) - ((2 : Nat) : ℤ)).natAbs ≤ ((m : ℤ) - ((2 : Nat) : ℤ)).natAbs) ∧
         (∀ m ∈ anchorMatches ["alpha", "beta", "gamma", "delta"] 0 2 2 "gamma",
            ((m : ℤ) - ((2 : Nat) : ℤ)).natAbs = ((chosen : ℤ) - ((2 : Nat) : ℤ)).natAbs →
              chosen ≤ m) ∧
         alignStep ["alpha", "beta", "gamma", "delta"]
           (_compute_word_counts_in_transcript ["alpha", "beta", "gamma", "delta"]) [] 0
           ⟨0, 0, []⟩ ⟨"alpha beta", 0, 2⟩ ⟨"gamma delta", 2, 4⟩ =
           some ⟨0 + chosen, 0,
             [] ++ [⟨joinWords ((searchRange ["alpha", "beta", "gamma", "delta"] 0 2 2).take
                       chosen), lastEnd 0 [], 2⟩]⟩) :=
  aligner_match_policy ["alpha", "beta", "gamma", "delta"]
    (_compute_word_counts_in_transcript ["alpha", "beta", "gamma", "delta"]) [] 0
    ⟨0, 0, []⟩ ⟨"alpha beta", 0, 2⟩ ⟨"gamma delta", 2, 4⟩ "gamma" ["delta"] 2 2
    rfl rfl rfl rfl (by decide)
